import Mathlib

/-!
Verification model of the notes-kv action (src/index.ts).

Strings of the host language are modelled as lists of characters, so that
trimming and splitting admit inductive proofs.  Objects of the host language
are modelled as association lists with the set-or-append update of property
assignment; spread and Object.fromEntries are folds of that update.  The
external world (git, the file system, JSON.parse) is an oracle record, and
`run` returns the terminal status, the list of executed git commands and the
emitted warnings.
-/

set_option linter.unusedVariables false

/-- Host-language strings, modelled as lists of characters. -/
abbrev JStr := List Char

/-- Embeds a Lean string literal as a `JStr`. -/
def jstr (s : String) : JStr := s.data

/-- The whitespace predicate of the host language trim operation. -/
def jsIsWs (c : Char) : Bool :=
  c = ' ' || c = '\t' || c = '\n' || c = '\r' ||
  c = Char.ofNat 11 || c = Char.ofNat 12 || c = Char.ofNat 160 || c = Char.ofNat 65279

/-- Drop leading whitespace. -/
def ldropWs (s : JStr) : JStr := s.dropWhile jsIsWs

/-- Drop trailing whitespace. -/
def rdropWs (s : JStr) : JStr := (s.reverse.dropWhile jsIsWs).reverse

/-- `String.prototype.trim`: drop leading and trailing whitespace. -/
def jsTrim (s : JStr) : JStr := rdropWs (ldropWs s)

/-- Helper for `splitOnChar`: returns the segment before the first separator
and the list of the remaining segments. -/
def splitOnCharAux (c : Char) : JStr → JStr × List JStr
  | [] => ([], [])
  | a :: rest =>
    let r := splitOnCharAux c rest
    if a = c then ([], r.1 :: r.2) else (a :: r.1, r.2)

/-- `String.prototype.split` with a one-character separator: the empty string
splits to one empty segment, and n separators yield n+1 segments. -/
def splitOnChar (c : Char) (s : JStr) : List JStr :=
  (splitOnCharAux c s).1 :: (splitOnCharAux c s).2

/-- `Array.prototype.join`: concatenation with a separator between elements. -/
def joinWith (sep : JStr) : List JStr → JStr
  | [] => []
  | [x] => x
  | x :: rest => x ++ sep ++ joinWith sep rest

/-- Helper for `mapIndex`, carrying the current index. -/
def mapIndexAux (f : Nat → α → β) : Nat → List α → List β
  | _, [] => []
  | i, a :: rest => f i a :: mapIndexAux f (i + 1) rest

/-- `Array.prototype.map` when the callback also uses the element index. -/
def mapIndex (f : Nat → α → β) (l : List α) : List β := mapIndexAux f 0 l

/-- Decimal rendering of a number used in error messages. -/
def natChars (n : Nat) : JStr := (Nat.repr n).data

/-- Property assignment on a host-language object: if the key is present its
value is replaced in place, otherwise the pair is appended. -/
def objSet (m : List (JStr × α)) (k : JStr) (v : α) : List (JStr × α) :=
  match m with
  | [] => [(k, v)]
  | (k', v') :: rest => if k' = k then (k', v) :: rest else (k', v') :: objSet rest k v

/-- `Object.fromEntries`: assign each pair in order into a fresh object. -/
def fromEntries (l : List (JStr × α)) : List (JStr × α) :=
  l.foldl (fun m p => objSet m p.1 p.2) []

/-- Property lookup on an object whose keys are unique: first match. -/
def jsGet : List (JStr × α) → JStr → Option α
  | [], _ => none
  | (k', v) :: rest, k => if k' = k then some v else jsGet rest k

/-- The value of the last pair carrying the key, if any: the value that
repeated assignment of the pairs in order leaves behind. -/
def jsGetLast (l : List (JStr × α)) (k : JStr) : Option α :=
  l.foldl (fun acc p => if p.1 = k then some p.2 else acc) none

/-- Left-biased choice on options. -/
def jsOr (a b : Option α) : Option α :=
  match a with
  | some v => some v
  | none => b

/-- JSON values.  Numbers carry an integer payload: no claim about this
program depends on the value of a number. -/
inductive Json where
  | null
  | bool (b : Bool)
  | num (n : Int)
  | str (s : JStr)
  | arr (elems : List Json)
  | obj (fields : List (JStr × Json))

/-- `typeof` of the host language on parsed JSON values.  `typeof null` and
`typeof` of an array are both `"object"`. -/
def jsTypeof : Json → JStr
  | .null => jstr "object"
  | .bool _ => jstr "boolean"
  | .num _ => jstr "number"
  | .str _ => jstr "string"
  | .arr _ => jstr "object"
  | .obj _ => jstr "object"

/-- One character of a JSON-serialized string body. -/
def jsonEscapeChar (c : Char) : JStr :=
  if c = '"' then ['\\', '"']
  else if c = '\\' then ['\\', '\\']
  else if c = Char.ofNat 8 then ['\\', 'b']
  else if c = Char.ofNat 12 then ['\\', 'f']
  else if c = '\n' then ['\\', 'n']
  else if c = '\r' then ['\\', 'r']
  else if c = '\t' then ['\\', 't']
  else if c.toNat < 32 then
    ['\\', 'u', '0', '0',
      (if c.toNat / 16 < 10 then Char.ofNat (48 + c.toNat / 16) else Char.ofNat (87 + c.toNat / 16)),
      (if c.toNat % 16 < 10 then Char.ofNat (48 + c.toNat % 16) else Char.ofNat (87 + c.toNat % 16))]
  else [c]

/-- JSON serialization of a string. -/
def jsonQuote (s : JStr) : JStr := '"' :: (s.map jsonEscapeChar).flatten ++ ['"']

mutual

/-- `JSON.stringify`. -/
def Json.stringify : Json → JStr
  | .null => jstr "null"
  | .bool true => jstr "true"
  | .bool false => jstr "false"
  | .num n => (Int.repr n).data
  | .str s => jsonQuote s
  | .arr xs => '[' :: stringifyElems xs ++ [']']
  | .obj fs => Char.ofNat 123 :: stringifyFields fs ++ [Char.ofNat 125]

/-- Comma-separated serializations of array elements. -/
def stringifyElems : List Json → JStr
  | [] => []
  | [x] => x.stringify
  | x :: rest => x.stringify ++ [','] ++ stringifyElems rest

/-- Comma-separated serializations of object fields. -/
def stringifyFields : List (JStr × Json) → JStr
  | [] => []
  | [(k, v)] => jsonQuote k ++ [':'] ++ v.stringify
  | (k, v) :: rest => jsonQuote k ++ [':'] ++ v.stringify ++ [','] ++ stringifyFields rest

end

/-- The own enumerable entries a value contributes under object spread:
objects give their fields, arrays and strings their indexed elements,
and `null` and the primitives give nothing. -/
def jsOwnEntries : Json → List (JStr × Json)
  | .null => []
  | .bool _ => []
  | .num _ => []
  | .str s => mapIndex (fun i c => (natChars i, Json.str [c])) s
  | .arr xs => mapIndex (fun i x => (natChars i, x)) xs
  | .obj fs => fs

/-- Object spread `\x7b ...a, ...b \x7d`: assign the entries of `a`, then the
entries of `b`, into a fresh object. -/
def jsSpread (a b : Json) : Json :=
  Json.obj (fromEntries (jsOwnEntries a ++ jsOwnEntries b))

/-- `Object.keys`.  On `null` the host language raises a type error. -/
def jsObjectKeys : Json → Except JStr (List JStr)
  | .null => .error (jstr "Cannot convert undefined and null to object")
  | .bool _ => .ok []
  | .num _ => .ok []
  | .str s => .ok (mapIndex (fun i _ => natChars i) s)
  | .arr xs => .ok (mapIndex (fun i _ => natChars i) xs)
  | .obj fs => .ok (fs.map Prod.fst)

/-- One line of the inline input after the per-line processing of
`parseInput`: trim the line, split on every `=`, trim every part. -/
def lineProc (line : JStr) : List JStr :=
  (splitOnChar '=' (jsTrim line)).map jsTrim

/-- The processed lines of an inline input: trim the whole input, split on
newlines, process each line. -/
def pairsOf (input : JStr) : List (List JStr) :=
  (splitOnChar '\n' (jsTrim input)).map lineProc

/-- The invalidity test of `parseInput` on a processed line: not exactly two
parts, or an empty part. -/
def isInvalidPair (pair : List JStr) : Bool :=
  decide (pair.length ≠ 2) || decide (pair.getD 0 [] = []) || decide (pair.getD 1 [] = [])

/-- `parseInput` of src/index.ts: process the lines, reject the whole input
when any processed line is invalid (reporting indices counted over the
filtered invalid subset), otherwise build the object from the pairs. -/
def parseInput (input : JStr) : Except JStr (List (JStr × JStr)) :=
  let pairs := pairsOf input
  let invalidLines := pairs.filter isInvalidPair
  if invalidLines.length > 0 then
    .error (jstr "Invalid input format on lines: " ++
      joinWith (jstr ", ") (mapIndex (fun i _ => natChars (i + 1)) invalidLines))
  else
    .ok (fromEntries (pairs.map (fun p => (p.getD 0 [], p.getD 1 []))))

/-- The external world: the file system read and `JSON.parse`, each returning
a value or the message of the raised error. -/
structure ExtWorld where
  fileContent : JStr → Except JStr JStr
  jsonParse : JStr → Except JStr Json

/-- `readInput` of src/index.ts: reject both sources present, parse the
inline source when present, otherwise read and JSON-parse the file and reject
a value whose `typeof` is not `"object"`, otherwise reject neither present. -/
def readInput (valuesInput valuesFile : JStr) (ext : ExtWorld) : Except JStr Json :=
  if valuesInput ≠ [] ∧ jsTrim valuesInput ≠ [] ∧ valuesFile ≠ [] ∧ jsTrim valuesFile ≠ [] then
    .error (jstr "Both values and values_file cannot be provided.")
  else if valuesInput ≠ [] ∧ jsTrim valuesInput ≠ [] then
    match parseInput valuesInput with
    | .error e => .error e
    | .ok m => .ok (Json.obj (m.map (fun p => (p.1, Json.str p.2))))
  else if valuesFile ≠ [] ∧ jsTrim valuesFile ≠ [] then
    match ext.fileContent valuesFile with
    | .error e => .error e
    | .ok content =>
      match ext.jsonParse content with
      | .error e => .error e
      | .ok j =>
        if jsTypeof j ≠ jstr "object" then .error (jstr "Input must be a JSON object.")
        else .ok j
  else
    .error (jstr "Either values or values_file must be provided.")

/-- The outcome of each git invocation of one run: the captured stdout, or
the message of the raised error. -/
structure GitEnv where
  revParse : Except JStr JStr
  fetch : Except JStr JStr
  showNote : Except JStr JStr
  add : Except JStr JStr
  push : Except JStr JStr

/-- The git commands the run executes, with the arguments that vary. -/
inductive GitCmd where
  | revParse
  | fetch (ref : JStr)
  | notesShow (ref : JStr)
  | notesAdd (ref : JStr) (message : JStr) (commit : JStr)
  | push
deriving DecidableEq

/-- Outcome of `addOrUpdateNotes`: terminal status, executed git commands,
emitted warnings. -/
structure NotesOut where
  result : Except JStr Unit
  cmds : List GitCmd
  warnings : List JStr

/-- `addOrUpdateNotes` of src/index.ts: read the existing note (absence is
non-fatal), JSON-parse a non-empty body and spread the new notes over it
(parse failure is a warning and the new notes stand alone), then force-write
the serialized result. -/
def addOrUpdateNotes (env : GitEnv) (ext : ExtWorld) (notes : Json)
    (commitSha notesRef : JStr) : NotesOut :=
  let existingNote : JStr :=
    match env.showNote with
    | .ok out => jsTrim out
    | .error _ => []
  let merged : Json × List JStr :=
    if existingNote ≠ [] then
      match ext.jsonParse existingNote with
      | .ok existingNotes => (jsSpread existingNotes notes, [])
      | .error _ =>
        (notes, [jstr "Failed to parse existing note as JSON. Overwriting with new note."])
    else (notes, [])
  let addCmd := GitCmd.notesAdd notesRef (Json.stringify merged.1) commitSha
  match env.add with
  | .error e => ⟨.error e, [GitCmd.notesShow notesRef, addCmd], merged.2⟩
  | .ok _ => ⟨.ok (), [GitCmd.notesShow notesRef, addCmd], merged.2⟩

/-- The notes ref the run uses: the `custom_ref` input when non-empty after
trimming, the constant `notes-kv` otherwise. -/
def resolveRef (customRef : JStr) : JStr :=
  if customRef ≠ [] ∧ jsTrim customRef ≠ [] then customRef else jstr "notes-kv"

/-- Outcome of one run: the failure message passed to the terminal failure
signal, if any, the executed git commands in order, the emitted warnings. -/
structure RunOut where
  failed : Option JStr
  cmds : List GitCmd
  warnings : List JStr
deriving DecidableEq

/-- `run` of src/index.ts: resolve the input into notes, return silently on
an empty key set, otherwise resolve the commit, fetch the notes ref
(failure absorbed), add or update the note and push; any raised error
becomes the terminal failure message. -/
def run (values valuesFile customRef : JStr) (ext : ExtWorld) (env : GitEnv) : RunOut :=
  match readInput values valuesFile ext with
  | .error e => ⟨some e, [], []⟩
  | .ok notes =>
    match jsObjectKeys notes with
    | .error e => ⟨some e, [], []⟩
    | .ok keys =>
      if keys.length = 0 then ⟨none, [], []⟩
      else
        let notesRef := resolveRef customRef
        match env.revParse with
        | .error e => ⟨some e, [.revParse], []⟩
        | .ok out =>
          let commitSha := jsTrim out
          let n := addOrUpdateNotes env ext notes commitSha notesRef
          match n.result with
          | .error e => ⟨some e, [.revParse, .fetch notesRef] ++ n.cmds, n.warnings⟩
          | .ok _ =>
            match env.push with
            | .error e =>
              ⟨some e, [.revParse, .fetch notesRef] ++ n.cmds ++ [.push], n.warnings⟩
            | .ok _ =>
              ⟨none, [.revParse, .fetch notesRef] ++ n.cmds ++ [.push], n.warnings⟩


/-- A line of a well-formed inline input `k=v`, with the whitespace
surrounding the line, the key and the value made explicit. -/
structure PadLine where
  w1 : JStr
  w2 : JStr
  w3 : JStr
  w4 : JStr
  key : JStr
  val : JStr

/-- The line without its outer padding: key, inner padding, `=`, inner
padding, value. -/
def PadLine.renderMid (p : PadLine) : JStr :=
  p.key ++ p.w2 ++ ['='] ++ p.w3 ++ p.val

/-- The rendered line: outer padding around `renderMid`. -/
def PadLine.render (p : PadLine) : JStr := p.w1 ++ p.renderMid ++ p.w4

/-- A well-formed inline input: the rendered lines joined by newlines. -/
def renderInput (ps : List PadLine) : JStr :=
  joinWith ['\n'] (ps.map PadLine.render)

/-- A padding string: whitespace only, and no newline (a newline would start
a new line of the input). -/
def padOk (w : JStr) : Prop := (∀ c ∈ w, jsIsWs c = true) ∧ '\n' ∉ w

/-- The string is non-empty and starts with a non-whitespace character. -/
def headNonWs (s : JStr) : Prop := s ≠ [] ∧ jsIsWs (s.headD ' ') = false

/-- The string is non-empty and ends with a non-whitespace character. -/
def lastNonWs (s : JStr) : Prop := headNonWs s.reverse

/-- A key or value token: trimmed (non-whitespace at both ends) and free of
`=` and newlines. -/
def tokOk (t : JStr) : Prop := headNonWs t ∧ lastNonWs t ∧ '=' ∉ t ∧ '\n' ∉ t

/-- A well-formed line: paddings are newline-free whitespace, key and value
are trimmed non-empty tokens without `=` or newlines. -/
def PadLine.good (p : PadLine) : Prop :=
  padOk p.w1 ∧ padOk p.w2 ∧ padOk p.w3 ∧ padOk p.w4 ∧ tokOk p.key ∧ tokOk p.val

instance (w : JStr) : Decidable (padOk w) := by
  unfold padOk
  infer_instance

instance (s : JStr) : Decidable (headNonWs s) := by
  unfold headNonWs
  infer_instance

instance (s : JStr) : Decidable (lastNonWs s) := by
  unfold lastNonWs
  infer_instance

instance (t : JStr) : Decidable (tokOk t) := by
  unfold tokOk
  infer_instance

instance (p : PadLine) : Decidable p.good := by
  unfold PadLine.good
  infer_instance

/-! ## Lemmas on objects as association lists -/

theorem jsOr_none (a : Option α) : jsOr a none = a := by
  cases a <;> rfl

theorem jsGet_objSet (m : List (JStr × α)) (k k' : JStr) (v : α) :
    jsGet (objSet m k v) k' = if k' = k then some v else jsGet m k' := by
  induction m with
  | nil =>
    simp only [objSet, jsGet]
    by_cases h : k = k'
    · subst h; simp
    · have h' : ¬ k' = k := fun he => h he.symm
      simp [h, h']
  | cons p rest ih =>
    obtain ⟨a, b⟩ := p
    simp only [objSet]
    by_cases hak : a = k
    · subst hak
      simp only [if_pos rfl, jsGet]
      by_cases hk' : a = k'
      · subst hk'; simp
      · have h2 : ¬ k' = a := fun he => hk' he.symm
        simp [hk', h2]
    · simp only [if_neg hak, jsGet]
      by_cases hk' : a = k'
      · subst hk'
        simp [hak]
      · simp [hk', ih]

theorem foldl_last_step (k : JStr) (l : List (JStr × α)) (init : Option α) :
    l.foldl (fun acc p => if p.1 = k then some p.2 else acc) init =
      jsOr (jsGetLast l k) init := by
  induction l generalizing init with
  | nil => simp [jsGetLast, jsOr]
  | cons p rest ih =>
    simp only [List.foldl_cons, jsGetLast] at *
    rw [ih, ih (if p.1 = k then some p.2 else none)]
    generalize (List.foldl (fun acc p => if p.1 = k then some p.2 else acc) none rest) = L
    by_cases hp : p.1 = k <;> cases L <;> simp [jsOr, hp]

theorem jsGetLast_cons (p : JStr × α) (l : List (JStr × α)) (k : JStr) :
    jsGetLast (p :: l) k = jsOr (jsGetLast l k) (if p.1 = k then some p.2 else none) := by
  simp only [jsGetLast, List.foldl_cons]
  exact foldl_last_step k l _

theorem jsGet_foldl_objSet (l : List (JStr × α)) (m0 : List (JStr × α)) (k : JStr) :
    jsGet (l.foldl (fun m p => objSet m p.1 p.2) m0) k = jsOr (jsGetLast l k) (jsGet m0 k) := by
  induction l generalizing m0 with
  | nil => simp [jsGetLast, jsOr]
  | cons p rest ih =>
    simp only [List.foldl_cons]
    rw [ih, jsGet_objSet, jsGetLast_cons]
    generalize jsGetLast rest k = L
    by_cases hp : p.1 = k
    · have hk : k = p.1 := hp.symm
      cases L <;> simp [jsOr, hk]
    · have hk : ¬ k = p.1 := fun he => hp he.symm
      cases L <;> simp [jsOr, hp, hk]

theorem jsGet_fromEntries (l : List (JStr × α)) (k : JStr) :
    jsGet (fromEntries l) k = jsGetLast l k := by
  rw [fromEntries, jsGet_foldl_objSet]
  simp [jsGet, jsOr_none]

theorem jsGetLast_append (a b : List (JStr × α)) (k : JStr) :
    jsGetLast (a ++ b) k = jsOr (jsGetLast b k) (jsGetLast a k) := by
  simp only [jsGetLast, List.foldl_append]
  exact foldl_last_step k b _

theorem jsGetLast_of_not_mem (l : List (JStr × α)) (k : JStr)
    (h : k ∉ l.map Prod.fst) : jsGetLast l k = none := by
  induction l with
  | nil => rfl
  | cons p rest ih =>
    simp only [List.map_cons, List.mem_cons] at h
    push_neg at h
    have hp : ¬ p.1 = k := fun he => h.1 he.symm
    rw [jsGetLast_cons, ih h.2]
    simp [jsOr, hp]

theorem jsGet_of_not_mem (l : List (JStr × α)) (k : JStr)
    (h : k ∉ l.map Prod.fst) : jsGet l k = none := by
  induction l with
  | nil => rfl
  | cons p rest ih =>
    simp only [List.map_cons, List.mem_cons] at h
    push_neg at h
    obtain ⟨a, b⟩ := p
    have hp : ¬ a = k := fun he => h.1 he.symm
    simp only [jsGet]
    simp [hp, ih h.2]

theorem jsGetLast_eq_jsGet_of_nodup (l : List (JStr × α)) (k : JStr)
    (h : (l.map Prod.fst).Nodup) : jsGetLast l k = jsGet l k := by
  induction l with
  | nil => rfl
  | cons p rest ih =>
    simp only [List.map_cons, List.nodup_cons] at h
    rw [jsGetLast_cons]
    obtain ⟨a, b⟩ := p
    by_cases hp : a = k
    · subst hp
      have hnone : jsGetLast rest a = none := jsGetLast_of_not_mem rest a h.1
      simp [hnone, jsOr, jsGet]
    · have hz : (if (a, b).1 = k then some (a, b).2 else none) = (none : Option α) := by
        simp [hp]
      rw [ih h.2, hz, jsOr_none]
      simp [jsGet, hp]

theorem jsGet_of_mem_nodup (l : List (JStr × α)) (k : JStr) (v : α)
    (h : (l.map Prod.fst).Nodup) (hm : (k, v) ∈ l) : jsGet l k = some v := by
  induction l with
  | nil => simp at hm
  | cons p rest ih =>
    simp only [List.map_cons, List.nodup_cons] at h
    rcases List.mem_cons.mp hm with he | ht
    · subst he
      simp [jsGet]
    · obtain ⟨a, b⟩ := p
      have hk : k ∈ rest.map Prod.fst := List.mem_map.mpr ⟨(k, v), ht, rfl⟩
      have hak : ¬ a = k := fun he => h.1 (he ▸ hk)
      simp only [jsGet, if_neg hak]
      exact ih h.2 ht

/-! ## Lemmas on indexed mapping -/

theorem mapIndexAux_const_fn (f : Nat → β) (l : List α) (n : Nat) :
    mapIndexAux (fun i _ => f i) n l = (List.range' n l.length).map f := by
  induction l generalizing n with
  | nil => rfl
  | cons a rest ih => simp [mapIndexAux, List.range', ih]

theorem mapIndex_const_fn (f : Nat → β) (l : List α) :
    mapIndex (fun i _ => f i) l = (List.range l.length).map f := by
  rw [mapIndex, mapIndexAux_const_fn, List.range_eq_range']

/-! ## Lemmas on trimming and splitting -/

theorem dropWhile_append_all (w s : JStr) (hw : ∀ c ∈ w, jsIsWs c = true) :
    (w ++ s).dropWhile jsIsWs = s.dropWhile jsIsWs := by
  induction w with
  | nil => rfl
  | cons c rest ih =>
    have hc : jsIsWs c = true := hw c (by simp)
    simp only [List.cons_append, List.dropWhile_cons, hc, if_true]
    exact ih (fun x hx => hw x (by simp [hx]))

theorem dropWhile_headNonWs (s : JStr) (h : headNonWs s) : s.dropWhile jsIsWs = s := by
  obtain ⟨hne, hh⟩ := h
  cases s with
  | nil => rfl
  | cons c rest =>
    simp only [List.headD_cons] at hh
    simp [List.dropWhile_cons, hh]

theorem dropWhile_append_of_ex (a b : JStr) (h : ∃ c ∈ a, jsIsWs c = false) :
    (a ++ b).dropWhile jsIsWs = a.dropWhile jsIsWs ++ b := by
  induction a with
  | nil =>
    obtain ⟨c, hc, _⟩ := h
    simp at hc
  | cons c rest ih =>
    by_cases hc : jsIsWs c
    · have h' : ∃ x ∈ rest, jsIsWs x = false := by
        obtain ⟨x, hx, hxf⟩ := h
        rcases List.mem_cons.mp hx with he | hx'
        · rw [he] at hxf
          rw [hc] at hxf
          cases hxf
        · exact ⟨x, hx', hxf⟩
      simp [List.dropWhile_cons, hc, ih h']
    · simp [List.dropWhile_cons, hc]

theorem ldropWs_append_ws (w s : JStr) (hw : ∀ c ∈ w, jsIsWs c = true) :
    ldropWs (w ++ s) = ldropWs s := dropWhile_append_all w s hw

theorem ldropWs_headNonWs (s : JStr) (h : headNonWs s) : ldropWs s = s :=
  dropWhile_headNonWs s h

theorem headNonWs_append (a b : JStr) (h : headNonWs a) : headNonWs (a ++ b) := by
  obtain ⟨hne, hh⟩ := h
  cases a with
  | nil => exact absurd rfl hne
  | cons c rest => exact ⟨by simp, by simpa using hh⟩

theorem lastNonWs_append (a b : JStr) (h : lastNonWs b) : lastNonWs (a ++ b) := by
  unfold lastNonWs at *
  rw [List.reverse_append]
  exact headNonWs_append _ _ h

theorem rdropWs_append_ws (s w : JStr) (hw : ∀ c ∈ w, jsIsWs c = true)
    (h : lastNonWs s) : rdropWs (s ++ w) = s := by
  unfold rdropWs
  rw [List.reverse_append,
    dropWhile_append_all _ _ (fun c hc => hw c (List.mem_reverse.mp hc)),
    dropWhile_headNonWs _ h, List.reverse_reverse]

theorem rdropWs_lastNonWs (s : JStr) (h : lastNonWs s) : rdropWs s = s := by
  have h0 := rdropWs_append_ws s [] (by simp) h
  simpa using h0

theorem rdropWs_append_ex (a x : JStr) (h : ∃ c ∈ x, jsIsWs c = false) :
    rdropWs (a ++ x) = a ++ rdropWs x := by
  unfold rdropWs
  rw [List.reverse_append,
    dropWhile_append_of_ex _ _
      (by obtain ⟨c, hc, hf⟩ := h; exact ⟨c, List.mem_reverse.mpr hc, hf⟩),
    List.reverse_append, List.reverse_reverse]

theorem jsTrim_pad (w w' m : JStr) (hw : ∀ c ∈ w, jsIsWs c = true)
    (hw' : ∀ c ∈ w', jsIsWs c = true) (hm1 : headNonWs m) (hm2 : lastNonWs m) :
    jsTrim (w ++ m ++ w') = m := by
  unfold jsTrim
  rw [List.append_assoc, ldropWs_append_ws _ _ hw,
    ldropWs_headNonWs _ (headNonWs_append _ _ hm1), rdropWs_append_ws _ _ hw' hm2]

theorem splitOnCharAux_no_sep (c : Char) (s : JStr) (h : c ∉ s) :
    splitOnCharAux c s = (s, []) := by
  induction s with
  | nil => rfl
  | cons a rest ih =>
    have hac : ¬ a = c := by
      intro he
      exact h (he ▸ List.mem_cons_self a rest)
    simp only [splitOnCharAux]
    rw [ih (fun hm => h (List.mem_cons_of_mem a hm))]
    simp [hac]

theorem splitOnChar_no_sep (c : Char) (s : JStr) (h : c ∉ s) :
    splitOnChar c s = [s] := by
  unfold splitOnChar
  rw [splitOnCharAux_no_sep c s h]

theorem splitOnCharAux_sep (c : Char) (A B : JStr) (h : c ∉ A) :
    splitOnCharAux c (A ++ c :: B) =
      (A, (splitOnCharAux c B).1 :: (splitOnCharAux c B).2) := by
  induction A with
  | nil => simp [splitOnCharAux]
  | cons a rest ih =>
    have hac : ¬ a = c := by
      intro he
      exact h (he ▸ List.mem_cons_self a rest)
    simp only [List.cons_append, splitOnCharAux, List.append_eq]
    rw [ih (fun hm => h (List.mem_cons_of_mem a hm))]
    simp [hac]

theorem splitOnChar_sep (c : Char) (A B : JStr) (h : c ∉ A) :
    splitOnChar c (A ++ c :: B) = A :: splitOnChar c B := by
  unfold splitOnChar
  rw [splitOnCharAux_sep c A B h]

theorem padOk_no_eq (w : JStr) (h : padOk w) : '=' ∉ w := by
  intro hm
  have hws : jsIsWs '=' = true := h.1 '=' hm
  exact absurd hws (by decide)

theorem tokOk_ne_nil (t : JStr) (h : tokOk t) : t ≠ [] := h.1.1

theorem renderMid_headNonWs (p : PadLine) (hg : p.good) : headNonWs p.renderMid := by
  obtain ⟨h1, h2, h3, h4, hk, hv⟩ := hg
  unfold PadLine.renderMid
  exact headNonWs_append _ _ (headNonWs_append _ _ (headNonWs_append _ _
    (headNonWs_append _ _ hk.1)))

theorem renderMid_lastNonWs (p : PadLine) (hg : p.good) : lastNonWs p.renderMid := by
  obtain ⟨h1, h2, h3, h4, hk, hv⟩ := hg
  unfold PadLine.renderMid
  exact lastNonWs_append _ _ hv.2.1

theorem renderMid_no_nl (p : PadLine) (hg : p.good) : '\n' ∉ p.renderMid := by
  obtain ⟨h1, h2, h3, h4, hk, hv⟩ := hg
  unfold PadLine.renderMid
  intro hm
  rcases List.mem_append.mp hm with hm | hm
  · rcases List.mem_append.mp hm with hm | hm
    · rcases List.mem_append.mp hm with hm | hm
      · rcases List.mem_append.mp hm with hm | hm
        · exact hk.2.2.2 hm
        · exact h2.2 hm
      · rw [List.mem_singleton] at hm
        exact absurd hm (by decide)
    · exact h3.2 hm
  · exact hv.2.2.2 hm

theorem render_no_nl (p : PadLine) (hg : p.good) : '\n' ∉ p.render := by
  unfold PadLine.render
  intro hm
  rcases List.mem_append.mp hm with hm | hm
  · rcases List.mem_append.mp hm with hm | hm
    · exact hg.1.2 hm
    · exact renderMid_no_nl p hg hm
  · exact hg.2.2.2.1.2 hm

theorem lineProc_pad (p : PadLine) (w w' : JStr)
    (hw : ∀ c ∈ w, jsIsWs c = true) (hw' : ∀ c ∈ w', jsIsWs c = true)
    (hg : p.good) :
    lineProc (w ++ p.renderMid ++ w') = [p.key, p.val] := by
  obtain ⟨h1, h2, h3, h4, hk, hv⟩ := hg
  unfold lineProc
  rw [jsTrim_pad w w' p.renderMid hw hw'
    (renderMid_headNonWs p ⟨h1, h2, h3, h4, hk, hv⟩)
    (renderMid_lastNonWs p ⟨h1, h2, h3, h4, hk, hv⟩)]
  have hre : p.renderMid = (p.key ++ p.w2) ++ '=' :: (p.w3 ++ p.val) := by
    unfold PadLine.renderMid
    simp
  have hA : '=' ∉ p.key ++ p.w2 := by
    intro hm
    rcases List.mem_append.mp hm with h | h
    · exact hk.2.2.1 h
    · exact padOk_no_eq _ h2 h
  have hB : '=' ∉ p.w3 ++ p.val := by
    intro hm
    rcases List.mem_append.mp hm with h | h
    · exact padOk_no_eq _ h3 h
    · exact hv.2.2.1 h
  rw [hre, splitOnChar_sep '=' _ _ hA, splitOnChar_no_sep '=' _ hB]
  simp only [List.map_cons, List.map_nil]
  have hkey : jsTrim (p.key ++ p.w2) = p.key := by
    have h0 := jsTrim_pad [] p.w2 p.key (by simp) h2.1 hk.1 hk.2.1
    simpa using h0
  have hval : jsTrim (p.w3 ++ p.val) = p.val := by
    have h0 := jsTrim_pad p.w3 [] p.val h3.1 (by simp) hv.1 hv.2.1
    simpa using h0
  rw [hkey, hval]

theorem renderInput_cons_cons (p q : PadLine) (t : List PadLine) :
    renderInput (p :: q :: t) = p.render ++ '\n' :: renderInput (q :: t) := by
  show joinWith ['\n'] (p.render :: q.render :: t.map PadLine.render) = _
  have h0 : joinWith ['\n'] (p.render :: q.render :: t.map PadLine.render) =
      p.render ++ ['\n'] ++ joinWith ['\n'] (q.render :: t.map PadLine.render) := rfl
  rw [h0]
  simp [renderInput]

theorem renderInput_singleton (p : PadLine) : renderInput [p] = p.render := by
  simp [renderInput, joinWith]

theorem renderInput_ex_nonws (ps : List PadLine) :
    ps ≠ [] → (∀ p ∈ ps, p.good) → ∃ c ∈ renderInput ps, jsIsWs c = false := by
  intro hne hg
  obtain ⟨p, rest, rfl⟩ : ∃ p rest, ps = p :: rest := by
    cases ps with
    | nil => exact absurd rfl hne
    | cons p rest => exact ⟨p, rest, rfl⟩
  have hk : headNonWs p.key := (hg p (by simp)).2.2.2.2.1.1
  obtain ⟨c, hc, hcf⟩ : ∃ c ∈ p.key, jsIsWs c = false := by
    obtain ⟨hne', hh⟩ := hk
    cases hk2 : p.key with
    | nil => exact absurd hk2 hne'
    | cons a t =>
      refine ⟨a, by simp [hk2], ?_⟩
      rw [hk2] at hh
      simpa using hh
  have hrender : c ∈ p.render := by
    unfold PadLine.render PadLine.renderMid
    refine List.mem_append.mpr (Or.inl (List.mem_append.mpr (Or.inr ?_)))
    exact List.mem_append.mpr (Or.inl (List.mem_append.mpr (Or.inl
      (List.mem_append.mpr (Or.inl (List.mem_append.mpr (Or.inl hc)))))))
  cases rest with
  | nil =>
    rw [renderInput_singleton]
    exact ⟨c, hrender, hcf⟩
  | cons q t =>
    rw [renderInput_cons_cons]
    exact ⟨c, List.mem_append.mpr (Or.inl hrender), hcf⟩

theorem render_decomp (p : PadLine) : p.render = (p.w1 ++ p.renderMid) ++ p.w4 := by
  unfold PadLine.render
  simp [List.append_assoc]

theorem lineProc_render (p : PadLine) (hg : p.good) : lineProc p.render = [p.key, p.val] := by
  have h0 : p.render = p.w1 ++ p.renderMid ++ p.w4 := rfl
  rw [h0]
  exact lineProc_pad p p.w1 p.w4 hg.1.1 hg.2.2.2.1.1 hg

theorem splitTrimR (ps : List PadLine) :
    ps ≠ [] → (∀ p ∈ ps, p.good) →
    (splitOnChar '\n' (rdropWs (renderInput ps))).map lineProc =
      ps.map (fun p => [p.key, p.val]) := by
  induction ps with
  | nil => intro hne _; exact absurd rfl hne
  | cons p rest ih =>
    intro _ hg
    have hp := hg p (by simp)
    cases rest with
    | nil =>
      rw [renderInput_singleton, render_decomp,
        rdropWs_append_ws _ _ hp.2.2.2.1.1
          (lastNonWs_append _ _ (renderMid_lastNonWs p hp)),
        splitOnChar_no_sep '\n' _ (by
          intro hm
          rcases List.mem_append.mp hm with hm | hm
          · exact hp.1.2 hm
          · exact renderMid_no_nl p hp hm)]
      simp only [List.map_cons, List.map_nil]
      have h0 : p.w1 ++ p.renderMid = p.w1 ++ p.renderMid ++ [] := by simp
      rw [h0, lineProc_pad p p.w1 [] hp.1.1 (by simp) hp]
    | cons q t =>
      rw [renderInput_cons_cons]
      have hex : ∃ c ∈ ('\n' :: renderInput (q :: t)), jsIsWs c = false := by
        obtain ⟨c, hc, hcf⟩ := renderInput_ex_nonws (q :: t) (by simp)
          (fun r hrm => hg r (by simp [hrm]))
        exact ⟨c, by simp [hc], hcf⟩
      rw [rdropWs_append_ex p.render _ hex]
      have hex2 : ∃ c ∈ renderInput (q :: t), jsIsWs c = false :=
        renderInput_ex_nonws (q :: t) (by simp) (fun r hrm => hg r (by simp [hrm]))
      have hcons : rdropWs ('\n' :: renderInput (q :: t)) =
          '\n' :: rdropWs (renderInput (q :: t)) := by
        have h0 := rdropWs_append_ex ['\n'] (renderInput (q :: t)) hex2
        simpa using h0
      rw [hcons, splitOnChar_sep '\n' _ _ (render_no_nl p hp)]
      simp only [List.map_cons]
      rw [lineProc_render p hp, ih (by simp) (fun r hrm => hg r (by simp [hrm]))]
      simp only [List.map_cons]

theorem pairsOf_render (ps : List PadLine) :
    ps ≠ [] → (∀ p ∈ ps, p.good) →
    pairsOf (renderInput ps) = ps.map (fun p => [p.key, p.val]) := by
  cases ps with
  | nil => intro hne _; exact absurd rfl hne
  | cons p rest =>
    intro _ hg
    have hp := hg p (by simp)
    unfold pairsOf jsTrim
    cases rest with
    | nil =>
      rw [renderInput_singleton]
      have h0 : p.render = p.w1 ++ (p.renderMid ++ p.w4) := by
        unfold PadLine.render
        simp [List.append_assoc]
      rw [h0, ldropWs_append_ws _ _ hp.1.1,
        ldropWs_headNonWs _ (headNonWs_append _ _ (renderMid_headNonWs p hp)),
        rdropWs_append_ws _ _ hp.2.2.2.1.1 (renderMid_lastNonWs p hp),
        splitOnChar_no_sep '\n' _ (renderMid_no_nl p hp)]
      simp only [List.map_cons, List.map_nil]
      have h1 : p.renderMid = [] ++ p.renderMid ++ [] := by simp
      rw [h1, lineProc_pad p [] [] (by simp) (by simp) hp]
    | cons q t =>
      rw [renderInput_cons_cons]
      have h0 : p.render ++ '\n' :: renderInput (q :: t) =
          p.w1 ++ ((p.renderMid ++ p.w4) ++ '\n' :: renderInput (q :: t)) := by
        unfold PadLine.render
        simp [List.append_assoc]
      rw [h0, ldropWs_append_ws _ _ hp.1.1,
        ldropWs_headNonWs _ (headNonWs_append _ _
          (headNonWs_append _ _ (renderMid_headNonWs p hp)))]
      have hex : ∃ c ∈ ('\n' :: renderInput (q :: t)), jsIsWs c = false := by
        obtain ⟨c, hc, hcf⟩ := renderInput_ex_nonws (q :: t) (by simp)
          (fun r hrm => hg r (by simp [hrm]))
        exact ⟨c, by simp [hc], hcf⟩
      have hex2 : ∃ c ∈ renderInput (q :: t), jsIsWs c = false :=
        renderInput_ex_nonws (q :: t) (by simp) (fun r hrm => hg r (by simp [hrm]))
      rw [rdropWs_append_ex _ _ hex]
      have hcons : rdropWs ('\n' :: renderInput (q :: t)) =
          '\n' :: rdropWs (renderInput (q :: t)) := by
        have hc0 := rdropWs_append_ex ['\n'] (renderInput (q :: t)) hex2
        simpa using hc0
      rw [hcons, splitOnChar_sep '\n' _ _ (by
        intro hm
        rcases List.mem_append.mp hm with hm | hm
        · exact renderMid_no_nl p hp hm
        · exact hp.2.2.2.1.2 hm)]
      simp only [List.map_cons]
      have h1 : p.renderMid ++ p.w4 = [] ++ p.renderMid ++ p.w4 := by simp
      rw [h1, lineProc_pad p [] p.w4 (by simp) hp.2.2.2.1.1 hp]
      have htail := splitTrimR (q :: t) (by simp) (fun r hrm => hg r (by simp [hrm]))
      rw [htail]
      simp only [List.map_cons]

/-! ## Claim theorems -/

/-- C1: when the existing note for the resolved commit parses as a JSON map
`E` and the new input yields map `N`, the map the run writes (serialized in
the executed notes-add command) maps every key of `N` to its `N`-value,
every key of `E` not in `N` to its `E`-value, and every other key to
nothing; the run succeeds and executes exactly the expected git commands. -/
theorem run_merge_law (values valuesFile customRef : JStr) (ext : ExtWorld) (env : GitEnv)
    (N E : List (JStr × Json)) (sha note addOut pushOut : JStr)
    (h1 : readInput values valuesFile ext = .ok (Json.obj N))
    (hN : N ≠ [])
    (hrev : env.revParse = .ok sha)
    (hshow : env.showNote = .ok note)
    (hnote : jsTrim note ≠ [])
    (hparse : ext.jsonParse (jsTrim note) = .ok (Json.obj E))
    (hadd : env.add = .ok addOut)
    (hpush : env.push = .ok pushOut)
    (hNn : (N.map Prod.fst).Nodup)
    (hEn : (E.map Prod.fst).Nodup) :
    (run values valuesFile customRef ext env).failed = none ∧
    (run values valuesFile customRef ext env).cmds =
      [GitCmd.revParse, GitCmd.fetch (resolveRef customRef),
       GitCmd.notesShow (resolveRef customRef),
       GitCmd.notesAdd (resolveRef customRef)
         (Json.stringify (Json.obj (fromEntries (E ++ N)))) (jsTrim sha),
       GitCmd.push] ∧
    (∀ k, (k ∈ N.map Prod.fst → jsGet (fromEntries (E ++ N)) k = jsGet N k) ∧
          (k ∉ N.map Prod.fst → k ∈ E.map Prod.fst →
            jsGet (fromEntries (E ++ N)) k = jsGet E k) ∧
          (k ∉ N.map Prod.fst → k ∉ E.map Prod.fst →
            jsGet (fromEntries (E ++ N)) k = none)) := by
  have hlen : ¬ ((N.map Prod.fst).length = 0) := by
    simpa [List.length_eq_zero] using hN
  have hnout : addOrUpdateNotes env ext (Json.obj N) (jsTrim sha) (resolveRef customRef) =
      ⟨.ok (), [GitCmd.notesShow (resolveRef customRef),
        GitCmd.notesAdd (resolveRef customRef)
          (Json.stringify (Json.obj (fromEntries (E ++ N)))) (jsTrim sha)], []⟩ := by
    simp only [addOrUpdateNotes, hshow, hadd]
    rw [if_pos hnote]
    simp only [hparse]
    rfl
  have hrun : run values valuesFile customRef ext env =
      ⟨none, [GitCmd.revParse, GitCmd.fetch (resolveRef customRef),
        GitCmd.notesShow (resolveRef customRef),
        GitCmd.notesAdd (resolveRef customRef)
          (Json.stringify (Json.obj (fromEntries (E ++ N)))) (jsTrim sha),
        GitCmd.push], []⟩ := by
    simp only [run, h1, jsObjectKeys, hrev, hnout, hpush]
    rw [if_neg hlen]
    rfl
  refine ⟨by rw [hrun], by rw [hrun], ?_⟩
  intro k
  have hM : jsGet (fromEntries (E ++ N)) k = jsOr (jsGetLast N k) (jsGetLast E k) := by
    rw [jsGet_fromEntries, jsGetLast_append]
  refine ⟨?_, ?_, ?_⟩
  · intro hk
    obtain ⟨⟨k', v⟩, hmem, hfst⟩ := List.mem_map.mp hk
    have hk' : k' = k := hfst
    subst hk'
    have hv : jsGet N k' = some v := jsGet_of_mem_nodup N k' v hNn hmem
    rw [hM, jsGetLast_eq_jsGet_of_nodup N k' hNn, hv]
    rfl
  · intro hk hkE
    rw [hM, jsGetLast_of_not_mem N k hk, jsGetLast_eq_jsGet_of_nodup E k hEn]
    rfl
  · intro hk hkE
    rw [hM, jsGetLast_of_not_mem N k hk, jsGetLast_of_not_mem E k hkE]
    rfl

/-- C1 witness: merging inline `a=1` over an existing note parsed as the map
with key `b` succeeds. -/
theorem run_merge_law_witness :
    (run (jstr "a=1") [] []
      ⟨fun _ => .error [], fun _ => .ok (Json.obj [(jstr "b", Json.str (jstr "2"))])⟩
      ⟨.ok (jstr "sha"), .ok [], .ok (jstr "x"), .ok [], .ok []⟩).failed = none :=
  (run_merge_law (jstr "a=1") [] []
    ⟨fun _ => .error [], fun _ => .ok (Json.obj [(jstr "b", Json.str (jstr "2"))])⟩
    ⟨.ok (jstr "sha"), .ok [], .ok (jstr "x"), .ok [], .ok []⟩
    [(jstr "a", Json.str (jstr "1"))] [(jstr "b", Json.str (jstr "2"))]
    (jstr "sha") (jstr "x") [] []
    rfl (List.cons_ne_nil _ _) rfl rfl (by decide) rfl rfl rfl (by decide) (by decide)).1

/-- C2: the values-file check accepts a top-level JSON array and a top-level
`null` as-is, because `typeof` of both is `"object"` — contradicting the
comment above the check and the specified rejection of arrays and null. -/
theorem readInput_accepts_array_and_null :
    readInput [] (jstr "values.json")
      ⟨fun _ => .ok (jstr "[]"), fun _ => .ok (Json.arr [])⟩ = .ok (Json.arr []) ∧
    readInput [] (jstr "values.json")
      ⟨fun _ => .ok (jstr "null"), fun _ => .ok Json.null⟩ = .ok Json.null := ⟨rfl, rfl⟩

/-- C3 counterexample: with neither input provided the run reports failure
(the configuration error), not a no-op success. -/
theorem run_neither_input_cx :
    run [] [] [] ⟨fun _ => .error [], fun _ => .error []⟩
      ⟨.ok [], .ok [], .ok [], .ok [], .ok []⟩ =
      ⟨some (jstr "Either values or values_file must be provided."), [], []⟩ ∧
    (run [] [] [] ⟨fun _ => .error [], fun _ => .error []⟩
      ⟨.ok [], .ok [], .ok [], .ok [], .ok []⟩).failed ≠ none := by
  refine ⟨rfl, ?_⟩
  intro h
  rw [show (run [] [] [] ⟨fun _ => .error [], fun _ => .error []⟩
    ⟨.ok [], .ok [], .ok [], .ok [], .ok []⟩).failed =
      some (jstr "Either values or values_file must be provided.") from rfl] at h
  exact Option.noConfusion h

/-- C3 amended: when neither `values` nor `values_file` is provided (both
empty after trimming), the run fails with the explicit configuration error
and performs no git operation. -/
theorem run_neither_input_fails (values valuesFile customRef : JStr)
    (ext : ExtWorld) (env : GitEnv)
    (hv : jsTrim values = []) (hf : jsTrim valuesFile = []) :
    run values valuesFile customRef ext env =
      ⟨some (jstr "Either values or values_file must be provided."), [], []⟩ := by
  have h1 : readInput values valuesFile ext =
      .error (jstr "Either values or values_file must be provided.") := by
    rw [readInput]
    rw [if_neg (by simp [hv]), if_neg (by simp [hv]), if_neg (by simp [hf])]
  simp [run, h1]

/-- C3 amended witness. -/
theorem run_neither_input_fails_witness :
    run [] [] [] ⟨fun _ => .error [], fun _ => .error []⟩
      ⟨.ok [], .ok [], .ok [], .ok [], .ok []⟩ =
      ⟨some (jstr "Either values or values_file must be provided."), [], []⟩ :=
  run_neither_input_fails [] [] [] _ _ rfl rfl

/-- C4 counterexample: the line `k=a=b` is rejected as invalid — it is not
parsed into key `k` and value `a=b`, because the line is split on every
equals sign. -/
theorem parseInput_two_eq_cx :
    parseInput (jstr "k=a=b") = .error (jstr "Invalid input format on lines: 1") ∧
    parseInput (jstr "k=a=b") ≠ .ok [(jstr "k", jstr "a=b")] := by
  refine ⟨rfl, ?_⟩
  intro h
  rw [show parseInput (jstr "k=a=b") =
    .error (jstr "Invalid input format on lines: 1") from rfl] at h
  exact Except.noConfusion h

/-- C4 amended: each line is split on every `=` (so a line with more than
one `=` is invalid); a line is valid exactly when splitting its trimmed text
on `=` yields exactly two parts that are non-empty after trimming. -/
theorem lineProc_valid_iff (line : JStr) :
    isInvalidPair (lineProc line) = false ↔
      ∃ a b, splitOnChar '=' (jsTrim line) = [a, b] ∧ jsTrim a ≠ [] ∧ jsTrim b ≠ [] := by
  have hl : lineProc line = (splitOnChar '=' (jsTrim line)).map jsTrim := rfl
  rw [hl]
  generalize splitOnChar '=' (jsTrim line) = s
  rcases s with _ | ⟨a, _ | ⟨b, _ | ⟨c, t⟩⟩⟩
  · simp [isInvalidPair]
  · simp [isInvalidPair]
  · constructor
    · rintro h
      simp [isInvalidPair] at h
      exact ⟨a, b, rfl, h.1, h.2⟩
    · rintro ⟨x, y, hxy, hx, hy⟩
      simp only [List.cons.injEq, and_true] at hxy
      obtain ⟨rfl, rfl⟩ := hxy
      simp [isInvalidPair, hx, hy]
  · simp [isInvalidPair]

/-- C4 amended witness: the line `k = v` is valid. -/
theorem lineProc_valid_iff_witness :
    isInvalidPair (lineProc (jstr "k = v")) = false :=
  (lineProc_valid_iff (jstr "k = v")).mpr
    ⟨jstr "k ", jstr " v", by decide, by decide, by decide⟩

/-- C5: an inline input with at least one invalid processed line is rejected
as a whole — `parseInput` returns an error, and a run on that inline input
fails without executing any git command, so no partial map is stored. -/
theorem parseInput_invalid_rejects (input : JStr)
    (h : ∃ p ∈ pairsOf input, isInvalidPair p = true) :
    (∃ e, parseInput input = .error e) ∧
    (∀ (valuesFile customRef : JStr) (ext : ExtWorld) (env : GitEnv),
      jsTrim input ≠ [] →
      (∃ e, (run input valuesFile customRef ext env).failed = some e) ∧
      (run input valuesFile customRef ext env).cmds = []) := by
  have hfil : (pairsOf input).filter isInvalidPair ≠ [] := by
    obtain ⟨p, hp, hip⟩ := h
    intro hnil
    have hall := List.filter_eq_nil_iff.mp hnil
    exact absurd hip (by simpa using hall p hp)
  have hlen : 0 < ((pairsOf input).filter isInvalidPair).length := List.length_pos.mpr hfil
  have hperr : parseInput input = .error (jstr "Invalid input format on lines: " ++
      joinWith (jstr ", ")
        (mapIndex (fun i _ => natChars (i + 1)) ((pairsOf input).filter isInvalidPair))) := by
    simp only [parseInput]
    rw [if_pos hlen]
  refine ⟨⟨_, hperr⟩, ?_⟩
  intro valuesFile customRef ext env htr
  have hne : input ≠ [] := by
    intro h0
    rw [h0] at htr
    exact htr rfl
  by_cases hb : input ≠ [] ∧ jsTrim input ≠ [] ∧ valuesFile ≠ [] ∧ jsTrim valuesFile ≠ []
  · have hri : readInput input valuesFile ext =
        .error (jstr "Both values and values_file cannot be provided.") := by
      unfold readInput
      rw [if_pos hb]
    constructor
    · exact ⟨jstr "Both values and values_file cannot be provided.", by simp [run, hri]⟩
    · simp [run, hri]
  · have hri : readInput input valuesFile ext = .error
        (jstr "Invalid input format on lines: " ++ joinWith (jstr ", ")
          (mapIndex (fun i _ => natChars (i + 1)) ((pairsOf input).filter isInvalidPair))) := by
      unfold readInput
      rw [if_neg hb, if_pos ⟨hne, htr⟩, hperr]
    constructor
    · exact ⟨jstr "Invalid input format on lines: " ++ joinWith (jstr ", ")
        (mapIndex (fun i _ => natChars (i + 1)) ((pairsOf input).filter isInvalidPair)),
        by simp [run, hri]⟩
    · simp [run, hri]

/-- C5 witness: `a=b` followed by a line without `=` rejects the input. -/
theorem parseInput_invalid_rejects_witness :
    (∃ p ∈ pairsOf (jstr "a=b\nbad"), isInvalidPair p = true) ∧
    (∃ e, parseInput (jstr "a=b\nbad") = .error e) := by
  have h : ∃ p ∈ pairsOf (jstr "a=b\nbad"), isInvalidPair p = true := by decide
  exact ⟨h, (parseInput_invalid_rejects (jstr "a=b\nbad") h).1⟩

/-- C6: a well-formed inline input — lines `k=v` with arbitrary newline-free
whitespace around each line, key and value — parses to the object with
exactly those keys bound to those values (keys and values are the trimmed
tokens), independent of the whitespace. -/
theorem parseInput_wellformed (ps : List PadLine) (hne : ps ≠ [])
    (hg : ∀ p ∈ ps, p.good) (hnd : (ps.map PadLine.key).Nodup) :
    parseInput (renderInput ps) =
      .ok (fromEntries (ps.map (fun p => (p.key, p.val)))) ∧
    (∀ p ∈ ps, jsGet (fromEntries (ps.map (fun p => (p.key, p.val)))) p.key = some p.val) ∧
    (∀ k, k ∉ ps.map PadLine.key →
      jsGet (fromEntries (ps.map (fun p => (p.key, p.val)))) k = none) := by
  have hpairs := pairsOf_render ps hne hg
  have hvalid : ∀ q ∈ pairsOf (renderInput ps), isInvalidPair q = false := by
    rw [hpairs]
    intro q hq
    obtain ⟨p, hp, hqe⟩ := List.mem_map.mp hq
    have hgp := hg p hp
    have hkne : ¬ p.key = [] := hgp.2.2.2.2.1.1.1
    have hvne : ¬ p.val = [] := hgp.2.2.2.2.2.1.1
    rw [← hqe]
    simp [isInvalidPair, hkne, hvne]
  have hnil : (pairsOf (renderInput ps)).filter isInvalidPair = [] :=
    List.filter_eq_nil_iff.mpr (by simpa using hvalid)
  have hkeys : ((ps.map (fun p => (p.key, p.val))).map Prod.fst) = ps.map PadLine.key := by
    rw [List.map_map]
    rfl
  have hnd' : ((ps.map (fun p => (p.key, p.val))).map Prod.fst).Nodup := by
    rw [hkeys]
    exact hnd
  refine ⟨?_, ?_, ?_⟩
  · simp only [parseInput]
    rw [hpairs] at hnil
    rw [hpairs]
    simp only [hnil, List.length_nil, gt_iff_lt, lt_irrefl, if_false]
    rw [List.map_map]
    rfl
  · intro p hp
    rw [jsGet_fromEntries, jsGetLast_eq_jsGet_of_nodup _ _ hnd']
    exact jsGet_of_mem_nodup _ _ _ hnd' (List.mem_map.mpr ⟨p, hp, rfl⟩)
  · intro k hk
    rw [jsGet_fromEntries]
    apply jsGetLast_of_not_mem
    rw [hkeys]
    exact hk

/-- C6 witness: two padded lines parse to the two-key object. -/
theorem parseInput_wellformed_witness :
    parseInput (renderInput
      [⟨jstr "  ", jstr " ", jstr " ", [], jstr "k1", jstr "v1"⟩,
       ⟨[], [], [], jstr "  ", jstr "k2", jstr "v2"⟩]) =
      .ok (fromEntries
        [(jstr "k1", jstr "v1"), (jstr "k2", jstr "v2")]) :=
  (parseInput_wellformed
    [⟨jstr "  ", jstr " ", jstr " ", [], jstr "k1", jstr "v1"⟩,
     ⟨[], [], [], jstr "  ", jstr "k2", jstr "v2"⟩]
    (List.cons_ne_nil _ _)
    (by decide) (by decide)).1

/-- C7: when the existing note body fails to parse as JSON the run does not
fail: the parse warning is emitted, the existing content is discarded, and
the note written is exactly the serialization of the new input map. -/
theorem run_unparseable_note (values valuesFile customRef : JStr) (ext : ExtWorld) (env : GitEnv)
    (N : List (JStr × Json)) (sha note addOut pushOut e : JStr)
    (h1 : readInput values valuesFile ext = .ok (Json.obj N))
    (hN : N ≠ [])
    (hrev : env.revParse = .ok sha)
    (hshow : env.showNote = .ok note)
    (hnote : jsTrim note ≠ [])
    (hparse : ext.jsonParse (jsTrim note) = .error e)
    (hadd : env.add = .ok addOut)
    (hpush : env.push = .ok pushOut) :
    (run values valuesFile customRef ext env).failed = none ∧
    (run values valuesFile customRef ext env).warnings =
      [jstr "Failed to parse existing note as JSON. Overwriting with new note."] ∧
    (run values valuesFile customRef ext env).cmds =
      [GitCmd.revParse, GitCmd.fetch (resolveRef customRef),
       GitCmd.notesShow (resolveRef customRef),
       GitCmd.notesAdd (resolveRef customRef) (Json.stringify (Json.obj N)) (jsTrim sha),
       GitCmd.push] := by
  have hlen : ¬ ((N.map Prod.fst).length = 0) := by
    simpa [List.length_eq_zero] using hN
  have hnout : addOrUpdateNotes env ext (Json.obj N) (jsTrim sha) (resolveRef customRef) =
      ⟨.ok (), [GitCmd.notesShow (resolveRef customRef),
        GitCmd.notesAdd (resolveRef customRef)
          (Json.stringify (Json.obj N)) (jsTrim sha)],
        [jstr "Failed to parse existing note as JSON. Overwriting with new note."]⟩ := by
    simp only [addOrUpdateNotes, hshow, hadd]
    rw [if_pos hnote]
    simp only [hparse]
  have hrun : run values valuesFile customRef ext env =
      ⟨none, [GitCmd.revParse, GitCmd.fetch (resolveRef customRef),
        GitCmd.notesShow (resolveRef customRef),
        GitCmd.notesAdd (resolveRef customRef) (Json.stringify (Json.obj N)) (jsTrim sha),
        GitCmd.push],
        [jstr "Failed to parse existing note as JSON. Overwriting with new note."]⟩ := by
    simp only [run, h1, jsObjectKeys, hrev, hnout, hpush]
    rw [if_neg hlen]
    rfl
  exact ⟨by rw [hrun], by rw [hrun], by rw [hrun]⟩

/-- C7 witness: an unparseable existing note produces the warning and a
successful run. -/
theorem run_unparseable_note_witness :
    (run (jstr "a=1") [] []
      ⟨fun _ => .error [], fun _ => .error (jstr "Unexpected token")⟩
      ⟨.ok (jstr "sha"), .ok [], .ok (jstr "x"), .ok [], .ok []⟩).warnings =
      [jstr "Failed to parse existing note as JSON. Overwriting with new note."] :=
  (run_unparseable_note (jstr "a=1") [] []
    ⟨fun _ => .error [], fun _ => .error (jstr "Unexpected token")⟩
    ⟨.ok (jstr "sha"), .ok [], .ok (jstr "x"), .ok [], .ok []⟩
    [(jstr "a", Json.str (jstr "1"))]
    (jstr "sha") (jstr "x") [] [] (jstr "Unexpected token")
    rfl (List.cons_ne_nil _ _) rfl rfl (by decide) rfl rfl rfl).2.1

/-- C8: with m invalid processed lines the error message lists the index
sequence 1..m computed over the filtered invalid subset, independent of the
original positions of the invalid lines in the input. -/
theorem parseInput_reports_filtered_indices (input : JStr) (m : Nat)
    (hm : ((pairsOf input).filter isInvalidPair).length = m) (hpos : 0 < m) :
    parseInput input = .error (jstr "Invalid input format on lines: " ++
      joinWith (jstr ", ") ((List.range m).map (fun i => natChars (i + 1)))) := by
  have hlen : 0 < ((pairsOf input).filter isInvalidPair).length := hm ▸ hpos
  simp only [parseInput]
  rw [if_pos hlen, mapIndex_const_fn, hm]

/-- C8 witness: invalid lines at original positions 2 and 4 are reported as
lines 1 and 2. -/
theorem parseInput_reports_filtered_indices_witness :
    ((pairsOf (jstr "a=b\nbad1\nc=d\nbad2")).filter isInvalidPair).length = 2 ∧
    parseInput (jstr "a=b\nbad1\nc=d\nbad2") =
      .error (jstr "Invalid input format on lines: 1, 2") := by
  refine ⟨by decide, ?_⟩
  have h := parseInput_reports_filtered_indices
    (jstr "a=b\nbad1\nc=d\nbad2") 2 (by decide) (by decide)
  simpa using h

/-- C9: an inline input whose processed lines are all valid parses
successfully — duplicate keys included — to the object built by assigning
each pair in order, whose lookup returns the value of the last line carrying
the key. -/
theorem parseInput_duplicates_last_wins (input : JStr)
    (h : ∀ p ∈ pairsOf input, isInvalidPair p = false) :
    parseInput input =
      .ok (fromEntries ((pairsOf input).map (fun p => (p.getD 0 [], p.getD 1 [])))) ∧
    ∀ k, jsGet (fromEntries ((pairsOf input).map (fun p => (p.getD 0 [], p.getD 1 [])))) k =
      jsGetLast ((pairsOf input).map (fun p => (p.getD 0 [], p.getD 1 []))) k := by
  have hnil : (pairsOf input).filter isInvalidPair = [] :=
    List.filter_eq_nil_iff.mpr (by simpa using h)
  constructor
  · simp only [parseInput]
    simp [hnil]
  · intro k
    exact jsGet_fromEntries _ k

/-- C9 witness: `a=1` then `a=2` parses and the object binds `a` to the last
value. -/
theorem parseInput_duplicates_last_wins_witness :
    (∀ p ∈ pairsOf (jstr "a=1\na=2"), isInvalidPair p = false) ∧
    (parseInput (jstr "a=1\na=2") =
      .ok (fromEntries ((pairsOf (jstr "a=1\na=2")).map (fun p => (p.getD 0 [], p.getD 1 [])))) ∧
    ∀ k, jsGet (fromEntries ((pairsOf (jstr "a=1\na=2")).map
        (fun p => (p.getD 0 [], p.getD 1 [])))) k =
      jsGetLast ((pairsOf (jstr "a=1\na=2")).map (fun p => (p.getD 0 [], p.getD 1 []))) k) :=
  ⟨by decide, parseInput_duplicates_last_wins (jstr "a=1\na=2") (by decide)⟩

/-- C10: whenever input resolution yields a value with zero keys the run
succeeds and executes no git command at all. -/
theorem run_empty_map_no_git (values valuesFile customRef : JStr) (ext : ExtWorld)
    (env : GitEnv) (j : Json)
    (h1 : readInput values valuesFile ext = .ok j)
    (h2 : jsObjectKeys j = .ok []) :
    run values valuesFile customRef ext env = ⟨none, [], []⟩ := by
  simp [run, h1, h2]

/-- C10 witness: a values file holding the empty object ends the run with no
git command. -/
theorem run_empty_map_no_git_witness :
    run [] (jstr "f.json") []
      ⟨fun _ => .ok [], fun _ => .ok (Json.obj [])⟩
      ⟨.ok [], .ok [], .ok [], .ok [], .ok []⟩ = ⟨none, [], []⟩ :=
  run_empty_map_no_git [] (jstr "f.json") [] _ _ (Json.obj []) rfl rfl
